import Mathlib

/-!
Verification of the ILP-to-SAT encoder of `pipip` (`src/ipsolver.py`).

The Python functions are shallowly embedded as Lean functions:

* machine integers are `Int`/`Nat` (the instance sizes involved are small,
  Python integers are unbounded anyway);
* the in-place mutation of the coefficient matrix `A` performed by
  `encode_ilp_to_sat` (line 62 of `ipsolver.py`: `coeffs[i] = abs(coeff)`,
  where `coeffs` aliases `A[constraint_num]` whenever the bound is
  non-negative) is modelled by threading the current state of `A` through
  the per-constraint loop and returning the final state next to the clause
  list;
* Python's `max()` on an empty sequence raises `ValueError`; the
  corresponding step of `solve_ilp` is modelled with `Option`, `none`
  standing for the raised exception;
* list indexing `A[c]`, `b[c]` is modelled with `List.getD _ _ default`;
  the default is never reached on the well-formed inputs the theorems are
  about (the source raises `IndexError` on ragged input, which no claim
  exercises).
-/

/-- Sum of absolute values of a coefficient row.  This is the value
`max_sum = sum(abs(coef) for coef in ...)` computed both at line 41 (inside
`get_s_idx`, from the current state of `A[constraint_num]`) and at line 64
(from the normalized `coeffs`) of `ipsolver.py`. -/
def maxSumRow (row : List Int) : Nat :=
  (row.map Int.natAbs).sum

/-- `get_s_idx` from `ipsolver.py` (lines 38-43): the variable number of the
accumulator variable `s_ij` of the given constraint.  `A` is the state of the
coefficient matrix at call time; `numVars` is `len(A[0])`.
`base_s_idx = 2*num_vars + 1`,
`offset = constraint_num * (num_vars + 1) * (max_sum + 1)`. -/
def get_s_idx (A : List (List Int)) (numVars c i j : Nat) : Nat :=
  2 * numVars + 1 + c * (numVars + 1) * (maxSumRow (A.getD c []) + 1)
    + i * (maxSumRow (A.getD c []) + 1) + j

/-- The complementary-variable clauses of lines 29-33 of `ipsolver.py`:
for each original variable `x_i = i+1` and its complement
`z_i = x_i + num_vars`, the clauses `(¬x_i ∨ ¬z_i)` and `(x_i ∨ z_i)`. -/
def complementClauses (numVars : Nat) : List (List Int) :=
  (List.range numVars).flatMap (fun i =>
    [[-((i + 1 : Nat) : Int), -((i + 1 + numVars : Nat) : Int)],
     [((i + 1 : Nat) : Int), ((i + 1 + numVars : Nat) : Int)]])

/-- The negative-coefficient pass of lines 59-62 of `ipsolver.py`:
walk the coefficient list; every negative coefficient is replaced by its
absolute value and the bound is increased by that absolute value. -/
def normLoop : List Int → Int → List Int × Int
  | [], bound => ([], bound)
  | coeff :: rest, bound =>
    if coeff < 0 then
      let r := normLoop rest (bound + |coeff|)
      (|coeff| :: r.1, r.2)
    else
      let r := normLoop rest bound
      (coeff :: r.1, r.2)

/-- The constraint normalization of lines 50-62 of `ipsolver.py`: if the
bound is negative, both the bound and all coefficients are negated and the
direction flag `geq` is set; then the negative-coefficient pass runs.
Returns `(coefficients, bound, geq)`. -/
def normalizeConstraint (row : List Int) (bound : Int) : List Int × Int × Bool :=
  if bound < 0 then
    let r := normLoop (row.map (fun c => -c)) (-bound)
    (r.1, r.2, true)
  else
    let r := normLoop row bound
    (r.1, r.2, false)

/-- The clauses emitted for one constraint (lines 64-110 of `ipsolver.py`),
given the state `A` of the matrix at that point (all calls to `get_s_idx`
happen after the in-place normalization of the row), the normalized
coefficients, the normalized bound and the direction flag. -/
def constraintClauses (A : List (List Int)) (numVars c : Nat)
    (coeffs : List Int) (bound : Int) (geq : Bool) : List (List Int) :=
  let ms := maxSumRow coeffs
  let s : Nat → Nat → Int := fun i j => ((get_s_idx A numVars c i j : Nat) : Int)
  ([s 0 0] :: (List.range' 1 ms).map (fun j => [-(s 0 j)]))
  ++ (List.range' 1 numVars).flatMap (fun i =>
      let w := (coeffs.getD (i - 1) 0).natAbs
      let v : Int := if 0 ≤ coeffs.getD (i - 1) 0 then ((i : Nat) : Int)
                     else ((i + numVars : Nat) : Int)
      (List.range (ms + 1)).flatMap (fun j =>
        if j < w then
          [[-(s i j), s (i - 1) j],
           [-(s i j), -v],
           [-(s (i - 1) j), v, s i j]]
        else
          [[-(s i j), s (i - 1) j, s (i - 1) (j - w)],
           [-(s i j), s (i - 1) j, v],
           [-(s i j), -v, s (i - 1) (j - w)],
           [-(s (i - 1) j), v, s i j],
           [-(s (i - 1) (j - w)), -v, s i j]]))
  ++ (if geq then
        (if (ms : Int) < bound then [[(1 : Int)], [(-1 : Int)]]
         else [(List.range' bound.toNat (ms - bound.toNat + 1)).map (fun k => s numVars k)])
      else
        (List.range' (bound.toNat + 1) (ms - bound.toNat)).map (fun k => [-(s numVars k)]))

/-- One iteration of the per-constraint loop (lines 46-110 of `ipsolver.py`):
normalize the row, perform the in-place update of `A` (the row alias is
mutated exactly when the bound is non-negative), and emit the clauses.
Returns `(clauses, new state of A)`. -/
def processConstraint (numVars c : Nat) (A : List (List Int)) (bnd : Int) :
    List (List Int) × List (List Int) :=
  (constraintClauses
      (if bnd < 0 then A else A.set c (normalizeConstraint (A.getD c []) bnd).1)
      numVars c
      (normalizeConstraint (A.getD c []) bnd).1
      (normalizeConstraint (A.getD c []) bnd).2.1
      (normalizeConstraint (A.getD c []) bnd).2.2,
   if bnd < 0 then A else A.set c (normalizeConstraint (A.getD c []) bnd).1)

/-- The per-constraint loop, processing constraints `c, c+1, ...` (`k` of
them), threading the state of `A`.  Returns the concatenated clauses and the
final state of `A`. -/
def encodeConstraintsFrom (numVars : Nat) (b : List Int) :
    Nat → Nat → List (List Int) → List (List Int) × List (List Int)
  | _, 0, A => ([], A)
  | c, k + 1, A =>
    let step := processConstraint numVars c A (b.getD c 0)
    let rest := encodeConstraintsFrom numVars b (c + 1) k step.2
    (step.1 ++ rest.1, rest.2)

/-- `encode_ilp_to_sat` from `ipsolver.py` (lines 5-112), with the final
state of the matrix `A` returned next to the clause list (the source mutates
`A` in place).  The guard is line 19: `if not A or not A[0]: return []`. -/
def encodeFull (A : List (List Int)) (b : List Int) :
    List (List Int) × List (List Int) :=
  if A.isEmpty || (A.headD []).isEmpty then ([], A)
  else
    (complementClauses (A.headD []).length
       ++ (encodeConstraintsFrom (A.headD []).length b 0 A.length A).1,
     (encodeConstraintsFrom (A.headD []).length b 0 A.length A).2)

/-- The clause list returned by `encode_ilp_to_sat`. -/
def encode_ilp_to_sat (A : List (List Int)) (b : List Int) : List (List Int) :=
  (encodeFull A b).1

/-- The state of the matrix `A` after `encode_ilp_to_sat` returns. -/
def finalA (A : List (List Int)) (b : List Int) : List (List Int) :=
  (encodeFull A b).2

/-- Truth value of a DIMACS-style literal (a non-zero integer) under an
assignment of booleans to variable numbers. -/
def litSat (σ : Nat → Bool) (l : Int) : Bool :=
  if 0 < l then σ l.toNat else !(σ (-l).toNat)

/-- A clause (disjunction) is satisfied iff some literal is. -/
def clauseSat (σ : Nat → Bool) (cl : List Int) : Bool :=
  cl.any (litSat σ)

/-- A CNF formula (conjunction of clauses) is satisfied iff every clause is. -/
def cnfSat (σ : Nat → Bool) (cls : List (List Int)) : Bool :=
  cls.all (clauseSat σ)

/-- Direct arithmetic evaluation of one row of `Ax`: the weighted sum of the
0/1 values of the original variables, variable `i+1` holding the value of
column `i`. -/
def dotRow (row : List Int) (x : Nat → Bool) : Int :=
  ((List.range row.length).map
    (fun i => row.getD i 0 * (if x (i + 1) then (1 : Int) else 0))).sum

/-- The variable-count computation of `solve_ilp` (line 147 of
`ipsolver.py`): `max(abs(lit) for clause in clauses for lit in clause)`.
Python's `max` raises `ValueError` on an empty sequence; this is the `none`
case. -/
def numVarsOfClauses (cls : List (List Int)) : Option Nat :=
  match cls.flatMap (fun cl => cl.map Int.natAbs) with
  | [] => none
  | l => some (l.foldl Nat.max 0)

/-- The point of `solve_ilp` (lines 137-159 of `ipsolver.py`) that decides
between normal execution and a raised exception on the way to the SAT
oracle: the variable count of the encoded formula.  `none` models the
`ValueError` raised on an empty clause list. -/
def solve_ilp_numVars (A : List (List Int)) (b : List Int) : Option Nat :=
  numVarsOfClauses (encode_ilp_to_sat A b)

/-- The exit-code behaviour of `main` in `ipsolver.py` (lines 182-201),
abstracted over the parse outcome and the external SAT oracle (the
`pip-compile`/`uv` subprocess behind `solve_sat`).  The `try` block catches
any exception and exits with code 1 (line 201); both the `Feasible` and the
`Infeasible` branches (lines 193-197) merely print and fall through, so the
process exits with code 0.  The only exception reachable in `solve_ilp`
before the oracle call is the `ValueError` of the `max` over an empty
literal sequence, modelled by `numVarsOfClauses = none`. -/
def mainRun (parseResult : Except String (List (List Int) × List Int))
    (oracle : List (List Int) → Option (Nat → Bool)) : Nat :=
  match parseResult with
  | Except.error _ => 1
  | Except.ok (A, b) =>
    match numVarsOfClauses (encode_ilp_to_sat A b) with
    | none => 1
    | some _ =>
      match oracle (encode_ilp_to_sat A b) with
      | none => 0
      | some _ => 0

/-- A SAT oracle that reports every formula unsatisfiable. -/
def noSolutionOracle : List (List Int) → Option (Nat → Bool) :=
  fun _ => none

example : encode_ilp_to_sat [[1]] [1] =
    [[-1, -2], [1, 2], [3], [-4],
     [-5, 3], [-5, -1], [-3, 1, 5],
     [-6, 4, 3], [-6, 4, 1], [-6, -1, 3], [-4, 1, 6], [-3, -1, 6]] := by
  decide

/-- The accumulator-variable numbering the spec's §4.3 describes: the block
offset of constraint `c` is the cumulative size of the accumulator blocks of
all constraints before `c` (block size `(numVars+1) * (maxSum+1)`). -/
def spec_c_offset (A : List (List Int)) (numVars c : Nat) : Nat :=
  ((List.range c).map (fun k => (numVars + 1) * (maxSumRow (A.getD k []) + 1))).sum

/-- The accumulator variable number the spec's §4.3 describes:
`base + c_offset(c) + i*(maxSum_c+1) + j` with `base = 2*numVars + 1`. -/
def spec_s_idx (A : List (List Int)) (numVars c i j : Nat) : Nat :=
  2 * numVars + 1 + spec_c_offset A numVars c
    + i * (maxSumRow (A.getD c []) + 1) + j

/-- If some clause of a formula evaluates to false, the formula does. -/
theorem cnfSat_eq_false_of_mem {σ : Nat → Bool} {cls : List (List Int)}
    {c : List Int} (h : c ∈ cls) (hc : clauseSat σ c = false) :
    cnfSat σ cls = false := by
  rw [Bool.eq_false_iff]
  intro hall
  rw [cnfSat, List.all_eq_true] at hall
  have h2 := hall c h
  rw [hc] at h2
  exact Bool.false_ne_true h2

/-- A satisfied formula satisfies each member clause. -/
theorem clauseSat_of_cnfSat {σ : Nat → Bool} {cls : List (List Int)}
    {c : List Int} (h : c ∈ cls) (hs : cnfSat σ cls = true) :
    clauseSat σ c = true := by
  rw [cnfSat, List.all_eq_true] at hs
  exact hs c h

/-- C3: on `A = [[2],[1]]` (one variable, two constraints with different
`max_sum`) the encoder's accumulator numbering collides: the triples
`(c=0, i=1, j=1)` and `(c=1, i=0, j=0)` both get variable 7, because the
code's offset is `c * (numVars+1) * (maxSum_c+1)` for the *current*
constraint's `maxSum` rather than the cumulative size of the earlier blocks;
the spec's cumulative formula gives 9 for the second triple.  This refutes
both the disjointness invariant and the claimed index formula. -/
theorem get_s_idx_overlap_bug :
    get_s_idx [[2], [1]] 1 0 1 1 = 7 ∧
    get_s_idx [[2], [1]] 1 1 0 0 = 7 ∧
    spec_s_idx [[2], [1]] 1 1 0 0 = 9 := by
  refine ⟨by decide, by decide, by decide⟩

/-- C4: with no constraints (or an empty first row) `encode_ilp_to_sat`
returns the empty clause list, and `solve_ilp`'s variable-count step
`max(abs(lit) ...)` is then `max` of an empty sequence, i.e. a raised
`ValueError` (`none`): `solve_ilp` crashes instead of reporting the trivially
satisfiable outcome. -/
theorem solve_ilp_empty_crash :
    encode_ilp_to_sat [] [] = [] ∧ solve_ilp_numVars [] [] = none ∧
    encode_ilp_to_sat [[]] [(0 : Int)] = [] ∧
    solve_ilp_numVars [[]] [(0 : Int)] = none := by
  refine ⟨rfl, rfl, rfl, rfl⟩

/-- C5 counterexample: `encode_ilp_to_sat` mutates its input matrix.  On
`A = [[-1]]`, `b = [0]` the negative-coefficient pass writes `abs(-1)` back
through the row alias, so after the call `A` is `[[1]]`, not `[[-1]]`. -/
theorem encode_mutates_input :
    finalA [[-1]] [(0 : Int)] = [[1]] := by
  decide

/-- C8 counterexample: on an infeasible instance (here `0·x1 ≤ -1`, whose
encoding ends in the contradiction pair `[1], [-1]`, so the oracle reports
UNSAT) `main` prints `Infeasible` and falls through, exiting with code 0,
not 1 as the claim states. -/
theorem main_exit_zero_on_infeasible :
    mainRun (Except.ok ([[0]], [-1])) noSolutionOracle = 0 := by
  rfl

/-- C1: the encoding is not equivalent to the constraint system.  For
`A = [[2],[1]]`, `b = [1,1]` the all-false assignment satisfies both
constraints (`2·0 ≤ 1`, `1·0 ≤ 1`), yet the returned clause set is
unsatisfiable under *every* assignment: the accumulator blocks of the two
constraints overlap (see `get_s_idx_overlap_bug`), making the clauses
`[-4]`, `[7]` and `[-7, 4]` jointly contradictory. -/
theorem encode_unsound_on_feasible_system :
    (dotRow [2] (fun _ => false) ≤ 1 ∧ dotRow [1] (fun _ => false) ≤ 1) ∧
    ∀ σ : Nat → Bool, cnfSat σ (encode_ilp_to_sat [[2], [1]] [1, 1]) = false := by
  refine ⟨⟨by decide, by decide⟩, ?_⟩
  intro σ
  cases h4 : σ 4 with
  | true =>
    refine cnfSat_eq_false_of_mem (c := [-4]) (by decide) ?_
    simp [clauseSat, litSat, h4]
  | false =>
    cases h7 : σ 7 with
    | true =>
      refine cnfSat_eq_false_of_mem (c := [-7, 4]) (by decide) ?_
      simp [clauseSat, litSat, h4, h7]
    | false =>
      refine cnfSat_eq_false_of_mem (c := [7]) (by decide) ?_
      simp [clauseSat, litSat, h7]

/-- C2: the sign test `coeffs[i-1] >= 0` at line 75 of `ipsolver.py` reads
the coefficients *after* the normalization pass has replaced them by their
absolute values, so the positive literal is always selected and the
complement form is never used.  On `A = [[1, -1]]`, `b = [0]` (constraint
`x1 - x2 ≤ 0`): the emitted clause `[-11, -2]` shows literal `2` (positive
form) in the slot where the claim requires the complement literal `4`, and
as a consequence the assignment `x1 = x2 = 1`, which satisfies the
constraint (`1 - 1 ≤ 0`), falsifies the encoding. -/
theorem encode_ignores_sign_in_literal_choice :
    ([-11, -2] ∈ encode_ilp_to_sat [[1, -1]] [0]) ∧
    dotRow [1, -1] (fun _ => true) ≤ 0 ∧
    ∀ σ : Nat → Bool,
      (cnfSat σ (encode_ilp_to_sat [[1, -1]] [0]) && σ 1 && σ 2) = false := by
  refine ⟨by decide, by decide, ?_⟩
  intro σ
  cases h1 : σ 1 with
  | false => simp [h1]
  | true =>
    cases h2 : σ 2 with
    | false => simp [h2]
    | true =>
      have hE : cnfSat σ (encode_ilp_to_sat [[1, -1]] [0]) = false := by
        rw [Bool.eq_false_iff]
        intro hall
        have h5 := clauseSat_of_cnfSat (c := [5]) (by decide) hall
        simp [clauseSat, litSat] at h5
        have h9 := clauseSat_of_cnfSat (c := [-5, -1, 9]) (by decide) hall
        simp [clauseSat, litSat, h5, h1] at h9
        have h13 := clauseSat_of_cnfSat (c := [-9, -2, 13]) (by decide) hall
        simp [clauseSat, litSat, h9, h2] at h13
        have hc := clauseSat_of_cnfSat (c := [-13]) (by decide) hall
        simp [clauseSat, litSat, h13] at hc
      simp [hE]

/-- The negative-coefficient pass leaves a list of non-negative coefficients
and its bound untouched. -/
theorem normLoop_of_nonneg {row : List Int} (bnd : Int)
    (h : ∀ x ∈ row, 0 ≤ x) : normLoop row bnd = (row, bnd) := by
  induction row generalizing bnd with
  | nil => rfl
  | cons c rest ih =>
    have hc : ¬ c < 0 := not_lt.mpr (h c (List.mem_cons_self c rest))
    have hrest : ∀ x ∈ rest, 0 ≤ x := fun x hx => h x (List.mem_cons_of_mem c hx)
    simp [normLoop, hc, ih bnd hrest]

/-- C7: normalization is the identity on an already-normalized constraint:
non-negative coefficients and a non-negative bound pass through unchanged,
with the direction flag left at "at-most" (`geq = false`). -/
theorem normalizeConstraint_idempotent (row : List Int) (bnd : Int)
    (hrow : ∀ x ∈ row, 0 ≤ x) (hbnd : 0 ≤ bnd) :
    normalizeConstraint row bnd = (row, bnd, false) := by
  have h : ¬ bnd < 0 := not_lt.mpr hbnd
  simp [normalizeConstraint, h, normLoop_of_nonneg bnd hrow]

/-- Witness for `normalizeConstraint_idempotent` at a concrete constraint. -/
theorem normalizeConstraint_idempotent_witness :
    normalizeConstraint [1, 0, 2] 3 = ([1, 0, 2], 3, false) :=
  normalizeConstraint_idempotent [1, 0, 2] 3 (by decide) (by decide)

/-- The state of `A` returned by one constraint step: unchanged when the
bound is negative (the flip allocates a fresh list), otherwise the row is
overwritten with the normalized coefficients. -/
theorem processConstraint_snd (numVars c : Nat) (A : List (List Int)) (bnd : Int) :
    (processConstraint numVars c A bnd).2 =
      if bnd < 0 then A else A.set c (normalizeConstraint (A.getD c []) bnd).1 := rfl

/-- The coefficients after the negative-coefficient pass are the absolute
values of the inputs. -/
theorem normLoop_fst (row : List Int) (bnd : Int) :
    (normLoop row bnd).1 = row.map (fun x => |x|) := by
  induction row generalizing bnd with
  | nil => rfl
  | cons c rest ih =>
    by_cases hc : c < 0
    · simp [normLoop, hc, ih]
    · simp [normLoop, hc, ih, abs_of_nonneg (not_lt.mp hc)]

/-- Normalized coefficients are the absolute values of the input row,
whether or not the bound flip happened. -/
theorem normalizeConstraint_fst (row : List Int) (bnd : Int) :
    (normalizeConstraint row bnd).1 = row.map (fun x => |x|) := by
  by_cases hb : bnd < 0
  · rw [normalizeConstraint, if_pos hb]
    show (normLoop (row.map (fun c => -c)) (-bnd)).1 = _
    rw [normLoop_fst, List.map_map]
    congr 1
    funext x
    simp [abs_neg]
  · rw [normalizeConstraint, if_neg hb]
    exact normLoop_fst row bnd

/-- The in-place effect of the per-constraint loop on the matrix, row by
row: a row whose bound is negative is left alone, any other row is replaced
by its elementwise absolute values. -/
def absRows (b : List Int) : Nat → List (List Int) → List (List Int)
  | _, [] => []
  | c, row :: rest =>
    (if b.getD c 0 < 0 then row else row.map (fun x => |x|)) :: absRows b (c + 1) rest

/-- The final matrix state of the constraint loop is `absRows` of the rows
it processes. -/
theorem encodeConstraintsFrom_snd (numVars : Nat) (b : List Int) :
    ∀ (rows pre : List (List Int)),
      (encodeConstraintsFrom numVars b pre.length rows.length (pre ++ rows)).2 =
        pre ++ absRows b pre.length rows := by
  intro rows
  induction rows with
  | nil => intro pre; simp [encodeConstraintsFrom, absRows]
  | cons row rest ih =>
    intro pre
    have hget : (pre ++ row :: rest).getD pre.length ([] : List Int) = row := by
      rw [List.getD_append_right _ _ _ _ (le_refl _), Nat.sub_self]
      rfl
    have hstep : (processConstraint numVars pre.length (pre ++ row :: rest)
        (b.getD pre.length 0)).2 =
        pre ++ (if b.getD pre.length 0 < 0 then row
                else row.map (fun x => |x|)) :: rest := by
      rw [processConstraint_snd]
      by_cases hb : b.getD pre.length 0 < 0
      · rw [if_pos hb, if_pos hb]
      · rw [if_neg hb, if_neg hb, hget, normalizeConstraint_fst,
          List.set_append, if_neg (lt_irrefl pre.length), Nat.sub_self]
        rfl
    show (encodeConstraintsFrom numVars b (pre.length + 1) rest.length
      (processConstraint numVars pre.length (pre ++ row :: rest)
        (b.getD pre.length 0)).2).2 = _
    rw [hstep]
    have h2 := ih (pre ++ [if b.getD pre.length 0 < 0 then row
                           else row.map (fun x => |x|)])
    rw [List.append_assoc, List.singleton_append, List.length_append] at h2
    simp only [List.length_singleton] at h2
    rw [h2, List.append_assoc, List.singleton_append]
    show _ = pre ++ absRows b pre.length (row :: rest)
    rw [absRows]

/-- Closed-form description of the state of `A` after `encode_ilp_to_sat`. -/
theorem finalA_eq (A : List (List Int)) (b : List Int) :
    finalA A b =
      if A.isEmpty || (A.headD []).isEmpty then A else absRows b 0 A := by
  rw [finalA, encodeFull]
  by_cases hg : (A.isEmpty || (A.headD []).isEmpty) = true
  · rw [if_pos hg, if_pos hg]
  · rw [if_neg hg, if_neg hg]
    have h := encodeConstraintsFrom_snd (A.headD []).length b A []
    rw [List.nil_append] at h
    exact h

/-- A row of non-negative coefficients is a fixed point of the elementwise
absolute value. -/
theorem map_abs_of_nonneg {row : List Int} (h : ∀ x ∈ row, 0 ≤ x) :
    row.map (fun x => |x|) = row := by
  induction row with
  | nil => rfl
  | cons c rest ih =>
    rw [List.map_cons, abs_of_nonneg (h c (List.mem_cons_self c rest)),
      ih (fun x hx => h x (List.mem_cons_of_mem c hx))]

/-- `absRows` fixes a matrix of non-negative coefficients. -/
theorem absRows_of_nonneg (b : List Int) (rows : List (List Int))
    (h : ∀ row ∈ rows, ∀ x ∈ row, 0 ≤ x) :
    ∀ c, absRows b c rows = rows := by
  induction rows with
  | nil => intro c; rfl
  | cons row rest ih =>
    intro c
    rw [absRows, map_abs_of_nonneg (h row (List.mem_cons_self row rest)),
      ite_self, ih (fun r hr => h r (List.mem_cons_of_mem row hr)) (c + 1)]

/-- C5 (amended): `encode_ilp_to_sat` only reads `b`, but writes `A` in
place: after the call, a row whose bound is negative is unchanged (the sign
flip allocates a fresh list), while every other row has each coefficient
replaced by its absolute value; in particular a matrix with no negative
coefficient is left fully unchanged. -/
theorem encode_mutation_amended :
    (∀ (A : List (List Int)) (b : List Int),
        finalA A b =
          if A.isEmpty || (A.headD []).isEmpty then A else absRows b 0 A) ∧
    (∀ (A : List (List Int)) (b : List Int),
        (∀ row ∈ A, ∀ x ∈ row, 0 ≤ x) → finalA A b = A) := by
  refine ⟨finalA_eq, ?_⟩
  intro A b h
  rw [finalA_eq, absRows_of_nonneg b A h 0, ite_self]

/-- Witness for `encode_mutation_amended` on a matrix with non-negative
coefficients: it comes back unchanged. -/
theorem encode_mutation_amended_witness :
    finalA [[1, 2]] [(5 : Int)] = [[1, 2]] :=
  encode_mutation_amended.2 [[1, 2]] [5] (by decide)

/-- C8 (amended): the CLI exit code is 1 exactly when an exception escapes
the `try` block (a parse error, or the `ValueError` raised by the
variable-count `max` on the empty formula); whenever solving completes, the
process falls through the `Feasible`/`Infeasible` print branches and exits
with code 0 — also on an UNSAT outcome. -/
theorem main_exit_code_spec :
    (∀ (e : String) (oracle : List (List Int) → Option (Nat → Bool)),
        mainRun (Except.error e) oracle = 1) ∧
    (∀ (A : List (List Int)) (b : List Int)
        (oracle : List (List Int) → Option (Nat → Bool)),
        mainRun (Except.ok (A, b)) oracle =
          if numVarsOfClauses (encode_ilp_to_sat A b) = none then 1 else 0) := by
  constructor
  · intro e oracle
    rfl
  · intro A b oracle
    rw [mainRun]
    cases h : numVarsOfClauses (encode_ilp_to_sat A b) with
    | none => rw [if_pos rfl]
    | some k =>
      rw [if_neg (by simp)]
      cases oracle (encode_ilp_to_sat A b) <;> rfl

/-- A positive literal with variable number at least 1 evaluates to the
variable's value. -/
theorem litSat_coe (σ : Nat → Bool) {m : Nat} (h : 1 ≤ m) :
    litSat σ ((m : Nat) : Int) = σ m := by
  rw [litSat, if_pos (by exact_mod_cast h)]
  simp

/-- A negative literal with variable number at least 1 evaluates to the
negation of the variable's value. -/
theorem litSat_neg_coe (σ : Nat → Bool) {m : Nat} (h : 1 ≤ m) :
    litSat σ (-((m : Nat) : Int)) = !(σ m) := by
  rw [litSat, if_neg (by omega)]
  simp

/-- A clause with a true literal is satisfied. -/
theorem clauseSat_of_lit {σ : Nat → Bool} {cl : List Int} {l : Int}
    (hm : l ∈ cl) (hl : litSat σ l = true) : clauseSat σ cl = true := by
  rw [clauseSat, List.any_eq_true]
  exact ⟨l, hm, hl⟩

/-- The two complementary clauses of original variable `a+1` occur in
`complementClauses`. -/
theorem mem_complementClauses (numVars a : Nat) (ha : a < numVars) :
    [-((a + 1 : Nat) : Int), -((a + 1 + numVars : Nat) : Int)]
        ∈ complementClauses numVars ∧
    [((a + 1 : Nat) : Int), ((a + 1 + numVars : Nat) : Int)]
        ∈ complementClauses numVars := by
  constructor
  · rw [complementClauses, List.mem_flatMap]
    exact ⟨a, List.mem_range.mpr ha, by simp⟩
  · rw [complementClauses, List.mem_flatMap]
    exact ⟨a, List.mem_range.mpr ha, by simp⟩

/-- When the guard of line 19 does not fire, `encode_ilp_to_sat` is the
complement clauses followed by the per-constraint clauses. -/
theorem encode_eq_of_guard {A : List (List Int)} {b : List Int}
    (hA : A.isEmpty = false) (h0 : (A.headD []).isEmpty = false) :
    encode_ilp_to_sat A b =
      complementClauses (A.headD []).length
        ++ (encodeConstraintsFrom (A.headD []).length b 0 A.length A).1 := by
  rw [encode_ilp_to_sat, encodeFull, if_neg (by rw [hA, h0]; simp)]

/-- C9: for a non-degenerate input the encoding contains the clauses
`(-i, -(i+n))` and `(i, i+n)` for every original variable `i` in `1..n`,
and consequently every satisfying assignment gives the complement variable
`i+n` the exact negation of variable `i`. -/
theorem complement_clauses_force_negation
    (A : List (List Int)) (b : List Int)
    (hA : A.isEmpty = false) (h0 : (A.headD []).isEmpty = false)
    (i : Nat) (h1 : 1 ≤ i) (h2 : i ≤ (A.headD []).length) :
    ([-(i : Int), -((i + (A.headD []).length : Nat) : Int)] ∈ encode_ilp_to_sat A b) ∧
    ([(i : Int), ((i + (A.headD []).length : Nat) : Int)] ∈ encode_ilp_to_sat A b) ∧
    (∀ σ : Nat → Bool, cnfSat σ (encode_ilp_to_sat A b) = true →
      σ (i + (A.headD []).length) = !(σ i)) := by
  have hmem := mem_complementClauses (A.headD []).length (i - 1) (by omega)
  have hi1 : i - 1 + 1 = i := by omega
  rw [hi1] at hmem
  rw [encode_eq_of_guard hA h0]
  refine ⟨List.mem_append_left _ hmem.1, List.mem_append_left _ hmem.2, ?_⟩
  intro σ hs
  have hc1 := clauseSat_of_cnfSat (List.mem_append_left _ hmem.1) hs
  have hc2 := clauseSat_of_cnfSat (List.mem_append_left _ hmem.2) hs
  have e1 : litSat σ (-(i : Int)) = !(σ i) := litSat_neg_coe σ h1
  have e2 : litSat σ (-((i + (A.headD []).length : Nat) : Int)) =
      !(σ (i + (A.headD []).length)) := litSat_neg_coe σ (by omega)
  have e3 : litSat σ ((i : Nat) : Int) = σ i := litSat_coe σ h1
  have e4 : litSat σ ((i + (A.headD []).length : Nat) : Int) =
      σ (i + (A.headD []).length) := litSat_coe σ (by omega)
  rw [clauseSat] at hc1 hc2
  rw [List.any_cons, List.any_cons, List.any_nil, Bool.or_false] at hc1 hc2
  rw [e1, e2] at hc1
  rw [e3, e4] at hc2
  cases hx : σ i <;> cases hz : σ (i + (A.headD []).length) <;>
    rw [hx, hz] at hc1 hc2 <;> simp_all

/-- A satisfying assignment of `encode_ilp_to_sat [[1]] [1]`. -/
def sigmaW : Nat → Bool := fun v => v == 1 || v == 3 || v == 6

/-- Witness for `complement_clauses_force_negation` at `A = [[1]]`,
`b = [1]`, `i = 1`, with the concrete satisfying assignment `sigmaW`. -/
theorem complement_clauses_force_negation_witness :
    ([-1, -2] ∈ encode_ilp_to_sat [[1]] [1]) ∧
    ([1, 2] ∈ encode_ilp_to_sat [[1]] [1]) ∧
    sigmaW 2 = !(sigmaW 1) := by
  have h := complement_clauses_force_negation [[1]] [1] rfl rfl 1 (by decide) (by decide)
  exact ⟨h.1, h.2.1, h.2.2 sigmaW (by decide)⟩

/-- The all-zero row has `max_sum = 0`. -/
theorem maxSumRow_replicate_zero (n : Nat) :
    maxSumRow (List.replicate n (0 : Int)) = 0 := by
  rw [maxSumRow, List.map_replicate]
  simp

/-- Every position of the all-zero row reads 0. -/
theorem getD_replicate_zero (n k : Nat) :
    (List.replicate n (0 : Int)).getD k 0 = 0 := by
  by_cases h : k < n
  · rw [List.getD_eq_getElem?_getD, List.getElem?_replicate, if_pos h]
    rfl
  · rw [List.getD_eq_getElem?_getD, List.getElem?_replicate, if_neg h]
    rfl

/-- A replicated row of positive length is non-empty. -/
theorem isEmpty_replicate_false (n : Nat) (hn : 1 ≤ n) :
    (List.replicate n (0 : Int)).isEmpty = false := by
  cases n with
  | zero => omega
  | succ k => rfl

/-- Normalizing the all-zero row with a non-negative bound changes nothing. -/
theorem normalizeConstraint_zero_row_nonneg (n : Nat) (B : Int) (hB : ¬ B < 0) :
    normalizeConstraint (List.replicate n 0) B = (List.replicate n 0, B, false) := by
  rw [normalizeConstraint, if_neg hB,
    normLoop_of_nonneg B (fun x hx => by rw [List.eq_of_mem_replicate hx])]

/-- Normalizing the all-zero row with a negative bound flips the bound and
sets the direction flag; the coefficients stay all-zero. -/
theorem normalizeConstraint_zero_row_neg (n : Nat) (B : Int) (hB : B < 0) :
    normalizeConstraint (List.replicate n 0) B = (List.replicate n 0, -B, true) := by
  rw [normalizeConstraint, if_pos hB, List.map_replicate]
  rw [show ((-0 : Int)) = 0 from rfl]
  rw [normLoop_of_nonneg (-B) (fun x hx => by rw [List.eq_of_mem_replicate hx])]

/-- `encode_ilp_to_sat` on a single non-degenerate constraint. -/
theorem encode_single (row : List Int) (B : Int) (h0 : row.isEmpty = false) :
    encode_ilp_to_sat [row] [B] =
      complementClauses row.length
        ++ ((processConstraint row.length 0 [row] B).1 ++ []) := by
  rw [encode_ilp_to_sat, encodeFull, if_neg (by simp [h0])]
  rfl

/-- Accumulator variable numbers exceed the original variable range. -/
theorem get_s_idx_gt (A : List (List Int)) (numVars c i j : Nat) :
    numVars < get_s_idx A numVars c i j := by
  unfold get_s_idx
  omega

/-- Accumulator variable numbers are at least 1 (in fact at least `2n+1`). -/
theorem get_s_idx_pos (A : List (List Int)) (numVars c i j : Nat) :
    1 ≤ get_s_idx A numVars c i j := by
  unfold get_s_idx
  omega

/-- The assignment that sets every variable above `numVars` true satisfies
every positive accumulator literal. -/
theorem litSat_sigma_sIdx (A : List (List Int)) (numVars c i j : Nat) :
    litSat (fun v => decide (numVars < v))
      ((get_s_idx A numVars c i j : Nat) : Int) = true := by
  rw [litSat_coe _ (get_s_idx_pos A numVars c i j)]
  simp only [decide_eq_true_eq]
  exact get_s_idx_gt A numVars c i j

/-- The assignment that sets exactly the variables above `numVars` true
satisfies all complementary clauses. -/
theorem complementClauses_sat_sigma (numVars : Nat) :
    ∀ cl ∈ complementClauses numVars,
      clauseSat (fun v => decide (numVars < v)) cl = true := by
  intro cl hcl
  rw [complementClauses, List.mem_flatMap] at hcl
  obtain ⟨a, ha, hmem⟩ := hcl
  rw [List.mem_range] at ha
  simp only [List.mem_cons, List.not_mem_nil, or_false] at hmem
  rcases hmem with rfl | rfl
  · refine clauseSat_of_lit (l := -((a + 1 : Nat) : Int)) (by simp) ?_
    rw [litSat_neg_coe _ (by omega)]
    have hlt : ¬ numVars < a + 1 := by omega
    simp [hlt]
  · refine clauseSat_of_lit (l := ((a + 1 + numVars : Nat) : Int)) (by simp) ?_
    rw [litSat_coe _ (by omega)]
    have hlt : numVars < a + 1 + numVars := by omega
    simp [hlt]

/-- Every clause emitted for the all-zero row with non-negative bound is
satisfied by the assignment setting exactly the variables above `n`. -/
theorem zero_row_constraint_sat (n : Nat) (B : Int) (hB : 0 ≤ B) :
    ∀ cl ∈ (processConstraint n 0 [List.replicate n 0] B).1,
      clauseSat (fun v => decide (n < v)) cl = true := by
  intro cl hcl
  have hproc : (processConstraint n 0 [List.replicate n 0] B).1 =
      constraintClauses [List.replicate n 0] n 0 (List.replicate n 0) B false := by
    show (constraintClauses
        (if B < 0 then _ else ([List.replicate n 0]).set 0
          (normalizeConstraint (([List.replicate n 0]).getD 0 []) B).1) n 0
        (normalizeConstraint (([List.replicate n 0]).getD 0 []) B).1
        (normalizeConstraint (([List.replicate n 0]).getD 0 []) B).2.1
        (normalizeConstraint (([List.replicate n 0]).getD 0 []) B).2.2) = _
    have hget : ([List.replicate n (0 : Int)]).getD 0 [] = List.replicate n 0 := rfl
    rw [hget, normalizeConstraint_zero_row_nonneg n B (not_lt.mpr hB), if_neg (not_lt.mpr hB)]
    rfl
  rw [hproc] at hcl
  simp only [constraintClauses, maxSumRow_replicate_zero] at hcl
  simp only [List.range'_zero, List.map_nil, Bool.false_eq_true, if_false,
    Nat.zero_sub, List.append_nil, getD_replicate_zero, Int.natAbs_zero,
    Nat.not_lt_zero, le_refl, if_true, Nat.sub_zero] at hcl
  rcases List.mem_append.mp hcl with h1 | h2
  · rcases List.mem_cons.mp h1 with rfl | hfalse
    · exact clauseSat_of_lit (l := ((get_s_idx [List.replicate n 0] n 0 0 0 : Nat) : Int))
        (by simp) (litSat_sigma_sIdx _ _ _ _ _)
    · exact absurd hfalse (List.not_mem_nil cl)
  · obtain ⟨i, hi, hin⟩ := List.mem_flatMap.mp h2
    obtain ⟨j, hj, hin2⟩ := List.mem_flatMap.mp hin
    have hj0 : j = 0 := by
      have := List.mem_range.mp hj
      omega
    subst hj0
    simp only [List.mem_cons, List.not_mem_nil, or_false] at hin2
    rcases hin2 with rfl | rfl | rfl | rfl | rfl
    · exact clauseSat_of_lit
        (l := ((get_s_idx [List.replicate n 0] n 0 (i - 1) 0 : Nat) : Int))
        (by simp) (litSat_sigma_sIdx _ _ _ _ _)
    · exact clauseSat_of_lit
        (l := ((get_s_idx [List.replicate n 0] n 0 (i - 1) 0 : Nat) : Int))
        (by simp) (litSat_sigma_sIdx _ _ _ _ _)
    · exact clauseSat_of_lit
        (l := ((get_s_idx [List.replicate n 0] n 0 (i - 1) 0 : Nat) : Int))
        (by simp) (litSat_sigma_sIdx _ _ _ _ _)
    · exact clauseSat_of_lit
        (l := ((get_s_idx [List.replicate n 0] n 0 i 0 : Nat) : Int))
        (by simp) (litSat_sigma_sIdx _ _ _ _ _)
    · exact clauseSat_of_lit
        (l := ((get_s_idx [List.replicate n 0] n 0 i 0 : Nat) : Int))
        (by simp) (litSat_sigma_sIdx _ _ _ _ _)

/-- The encoding of the all-zero constraint with non-negative bound is
satisfiable. -/
theorem zero_row_sat (n : Nat) (B : Int) (hn : 1 ≤ n) (hB : 0 ≤ B) :
    cnfSat (fun v => decide (n < v))
      (encode_ilp_to_sat [List.replicate n 0] [B]) = true := by
  rw [encode_single _ _ (isEmpty_replicate_false n hn)]
  simp only [List.length_replicate]
  rw [cnfSat, List.all_eq_true]
  intro cl hcl
  rcases List.mem_append.mp hcl with h1 | h2
  · exact complementClauses_sat_sigma n cl h1
  · rcases List.mem_append.mp h2 with h3 | h4
    · exact zero_row_constraint_sat n B hB cl h3
    · exact absurd h4 (List.not_mem_nil cl)

/-- The all-zero row with negative bound emits the contradiction pair
`[1]`, `[-1]` (the `bound > max_sum` branch of the `geq` case). -/
theorem zero_row_neg_contradiction (n : Nat) (B : Int) (hB : B < 0) :
    [(1 : Int)] ∈ (processConstraint n 0 [List.replicate n 0] B).1 ∧
    [(-1 : Int)] ∈ (processConstraint n 0 [List.replicate n 0] B).1 := by
  have hproc : (processConstraint n 0 [List.replicate n 0] B).1 =
      constraintClauses [List.replicate n 0] n 0 (List.replicate n 0) (-B) true := by
    show constraintClauses _ n 0
        (normalizeConstraint (([List.replicate n 0]).getD 0 []) B).1
        (normalizeConstraint (([List.replicate n 0]).getD 0 []) B).2.1
        (normalizeConstraint (([List.replicate n 0]).getD 0 []) B).2.2 = _
    rw [show ([List.replicate n (0 : Int)]).getD 0 [] = List.replicate n 0 from rfl,
      normalizeConstraint_zero_row_neg n B hB, if_pos hB]
  rw [hproc]
  simp only [constraintClauses, maxSumRow_replicate_zero]
  have h0B : (((0 : Nat) : Int)) < -B := by omega
  refine ⟨List.mem_append_right _ ?_, List.mem_append_right _ ?_⟩ <;> simp [h0B, hB]

/-- The encoding of the all-zero constraint with negative bound is
unsatisfiable: the clauses `[1]` and `[-1]` cannot both hold. -/
theorem zero_row_neg_unsat (n : Nat) (B : Int) (hn : 1 ≤ n) (hB : B < 0)
    (σ : Nat → Bool) :
    cnfSat σ (encode_ilp_to_sat [List.replicate n 0] [B]) = false := by
  have hmem := zero_row_neg_contradiction n B hB
  rw [encode_single _ _ (isEmpty_replicate_false n hn)]
  simp only [List.length_replicate]
  cases h1 : σ 1 with
  | true =>
    refine cnfSat_eq_false_of_mem (c := [(-1 : Int)]) ?_ ?_
    · exact List.mem_append_right _ (List.mem_append_left _ hmem.2)
    · simp [clauseSat, litSat, h1]
  | false =>
    refine cnfSat_eq_false_of_mem (c := [(1 : Int)]) ?_ ?_
    · exact List.mem_append_right _ (List.mem_append_left _ hmem.1)
    · simp [clauseSat, litSat, h1]

/-- C6: for every `n ≥ 1`, the all-zero coefficient row with bound `≥ 0`
encodes to a satisfiable clause set, while with bound `< 0` the clause set
is unconditionally unsatisfiable. -/
theorem zero_row_encoding (n : Nat) (B : Int) (hn : 1 ≤ n) :
    (0 ≤ B → cnfSat (fun v => decide (n < v))
        (encode_ilp_to_sat [List.replicate n 0] [B]) = true) ∧
    (B < 0 → ∀ σ : Nat → Bool,
        cnfSat σ (encode_ilp_to_sat [List.replicate n 0] [B]) = false) :=
  ⟨fun hB => zero_row_sat n B hn hB, fun hB σ => zero_row_neg_unsat n B hn hB σ⟩

/-- Witness for `zero_row_encoding` at `n = 2`, bounds `0` and `-1`. -/
theorem zero_row_encoding_witness :
    cnfSat (fun v => decide (2 < v)) (encode_ilp_to_sat [[0, 0]] [(0 : Int)]) = true ∧
    cnfSat (fun _ => true) (encode_ilp_to_sat [[0, 0]] [(-1 : Int)]) = false := by
  constructor
  · exact (zero_row_encoding 2 0 (by decide)).1 (by decide)
  · exact (zero_row_encoding 2 (-1) (by decide)).2 (by decide) (fun _ => true)

/-- A positive variable literal is a non-zero integer. -/
theorem blit_coe {m : Nat} (h : 1 ≤ m) : (!(((m : Nat) : Int) == 0)) = true := by
  rw [Bool.not_eq_eq_eq_not, Bool.not_true, beq_eq_false_iff_ne]
  simp only [ne_eq, Int.natCast_eq_zero]
  omega

/-- A negative variable literal is a non-zero integer. -/
theorem blit_neg_coe {m : Nat} (h : 1 ≤ m) :
    (!((-((m : Nat) : Int)) == 0)) = true := by
  rw [Bool.not_eq_eq_eq_not, Bool.not_true, beq_eq_false_iff_ne]
  simp only [ne_eq, neg_eq_zero, Int.natCast_eq_zero]
  omega

/-- The literal selected at position `i` of the recurrence is some variable
number of at least 1 (either `i` or `i + numVars`). -/
theorem vlit_eq (coeffs : List Int) (numVars i : Nat) (hi : 1 ≤ i) :
    ∃ m : Nat, 1 ≤ m ∧
      (if 0 ≤ coeffs.getD (i - 1) 0 then ((i : Nat) : Int)
       else ((i + numVars : Nat) : Int)) = ((m : Nat) : Int) := by
  by_cases hc : 0 ≤ coeffs.getD (i - 1) 0
  · exact ⟨i, hi, if_pos hc⟩
  · exact ⟨i + numVars, by omega, if_neg hc⟩

/-- Every clause of one constraint's block is non-empty with non-zero
literals; the at-least disjunction is only built in the `bound ≤ maxSum`
branch as a range of length `maxSum - bound + 1 ≥ 1`, hence non-empty. -/
theorem constraintClauses_wellformed (A : List (List Int)) (numVars c : Nat)
    (coeffs : List Int) (bound : Int) (geq : Bool) :
    ∀ cl ∈ constraintClauses A numVars c coeffs bound geq,
      cl.isEmpty = false ∧ cl.all (fun l => !(l == 0)) = true := by
  intro cl hcl
  simp only [constraintClauses] at hcl
  have hs : ∀ i j : Nat, (!(((get_s_idx A numVars c i j : Nat) : Int) == 0)) = true :=
    fun i j => blit_coe (get_s_idx_pos A numVars c i j)
  have hsn : ∀ i j : Nat, (!((-((get_s_idx A numVars c i j : Nat) : Int)) == 0)) = true :=
    fun i j => blit_neg_coe (get_s_idx_pos A numVars c i j)
  rcases List.mem_append.mp hcl with h12 | h3
  · rcases List.mem_append.mp h12 with h1 | h2
    · rcases List.mem_cons.mp h1 with rfl | hmap
      · exact ⟨rfl, by simp [List.all_cons, hs 0 0]⟩
      · obtain ⟨j, hj, rfl⟩ := List.mem_map.mp hmap
        exact ⟨rfl, by simp [List.all_cons, hsn 0 j]⟩
    · obtain ⟨i, hi, hin⟩ := List.mem_flatMap.mp h2
      have hi1 : 1 ≤ i := (List.mem_range'_1.mp hi).1
      obtain ⟨m, hm, hveq⟩ := vlit_eq coeffs numVars i hi1
      obtain ⟨j, hj, hin2⟩ := List.mem_flatMap.mp hin
      rw [hveq] at hin2
      by_cases hw : j < (coeffs.getD (i - 1) 0).natAbs
      · rw [if_pos hw] at hin2
        simp only [List.mem_cons, List.not_mem_nil, or_false] at hin2
        rcases hin2 with rfl | rfl | rfl
        · exact ⟨rfl, by simp [List.all_cons, hs, hsn]⟩
        · exact ⟨rfl, by simp [List.all_cons, hsn, blit_neg_coe hm]⟩
        · exact ⟨rfl, by simp [List.all_cons, hs, hsn, blit_coe hm]⟩
      · rw [if_neg hw] at hin2
        simp only [List.mem_cons, List.not_mem_nil, or_false] at hin2
        rcases hin2 with rfl | rfl | rfl | rfl | rfl
        · exact ⟨rfl, by simp [List.all_cons, hs, hsn]⟩
        · exact ⟨rfl, by simp [List.all_cons, hs, hsn, blit_coe hm]⟩
        · exact ⟨rfl, by simp [List.all_cons, hs, hsn, blit_neg_coe hm]⟩
        · exact ⟨rfl, by simp [List.all_cons, hs, hsn, blit_coe hm]⟩
        · exact ⟨rfl, by simp [List.all_cons, hs, hsn, blit_neg_coe hm]⟩
  · cases geq with
    | false =>
      simp only [Bool.false_eq_true, if_false] at h3
      obtain ⟨k, hk, rfl⟩ := List.mem_map.mp h3
      exact ⟨rfl, by simp [List.all_cons, hsn]⟩
    | true =>
      simp only [if_true] at h3
      by_cases hb : ((maxSumRow coeffs : Nat) : Int) < bound
      · rw [if_pos hb] at h3
        simp only [List.mem_cons, List.not_mem_nil, or_false] at h3
        rcases h3 with rfl | rfl
        · exact ⟨rfl, by decide⟩
        · exact ⟨rfl, by decide⟩
      · rw [if_neg hb] at h3
        simp only [List.mem_singleton] at h3
        subst h3
        constructor
        · rw [List.range'_succ, List.map_cons]
          rfl
        · rw [List.all_eq_true]
          intro l hl
          obtain ⟨k, hk, rfl⟩ := List.mem_map.mp hl
          exact hs numVars k

/-- The complementary clauses are non-empty with non-zero literals. -/
theorem complementClauses_wellformed (numVars : Nat) :
    ∀ cl ∈ complementClauses numVars,
      cl.isEmpty = false ∧ cl.all (fun l => !(l == 0)) = true := by
  intro cl hcl
  rw [complementClauses, List.mem_flatMap] at hcl
  obtain ⟨a, _, hmem⟩ := hcl
  simp only [List.mem_cons, List.not_mem_nil, or_false] at hmem
  rcases hmem with rfl | rfl
  · exact ⟨rfl, by simp [List.all_cons]; omega⟩
  · exact ⟨rfl, by simp [List.all_cons]; omega⟩

/-- Every clause emitted by the per-constraint loop is non-empty with
non-zero literals. -/
theorem encodeConstraintsFrom_wellformed (numVars : Nat) (b : List Int) :
    ∀ (k c : Nat) (A : List (List Int)),
      ∀ cl ∈ (encodeConstraintsFrom numVars b c k A).1,
        cl.isEmpty = false ∧ cl.all (fun l => !(l == 0)) = true := by
  intro k
  induction k with
  | zero =>
    intro c A cl hcl
    exact absurd hcl (List.not_mem_nil cl)
  | succ k ih =>
    intro c A cl hcl
    rcases List.mem_append.mp hcl with h1 | h2
    · exact constraintClauses_wellformed _ _ _ _ _ _ cl h1
    · exact ih (c + 1) _ cl h2

/-- C10: for every input, every clause returned by `encode_ilp_to_sat`
contains at least one literal and every literal is a non-zero integer. -/
theorem encode_clauses_wellformed (A : List (List Int)) (b : List Int) :
    ∀ cl ∈ encode_ilp_to_sat A b,
      cl.isEmpty = false ∧ cl.all (fun l => !(l == 0)) = true := by
  intro cl hcl
  by_cases hg : (A.isEmpty || (A.headD []).isEmpty) = true
  · rw [encode_ilp_to_sat, encodeFull, if_pos hg] at hcl
    exact absurd hcl (List.not_mem_nil cl)
  · have hA : A.isEmpty = false := by
      cases h : A.isEmpty
      · rfl
      · exact absurd (by rw [h]; rfl) hg
    have h0 : (A.headD []).isEmpty = false := by
      cases h : (A.headD []).isEmpty
      · rfl
      · exact absurd (by rw [h, Bool.or_true]) hg
    rw [encode_eq_of_guard hA h0] at hcl
    rcases List.mem_append.mp hcl with h1 | h2
    · exact complementClauses_wellformed _ cl h1
    · exact encodeConstraintsFrom_wellformed _ b _ _ _ cl h2

/-- Witness for `encode_clauses_wellformed` at the first clause of
`encode_ilp_to_sat [[1]] [1]`. -/
theorem encode_clauses_wellformed_witness :
    ([-1, -2] : List Int).isEmpty = false ∧
    ([-1, -2] : List Int).all (fun l => !(l == 0)) = true :=
  encode_clauses_wellformed [[1]] [1] [-1, -2] (by decide)
